import Mathlib

/-!
# Verification of the AHRS ADC double-buffered acquisition core

Shallow embedding of `src/flight/AHRS/ahrs_adc.c` (LibrePilot), the
double-buffered DMA / decimation-filter pipeline for the AHRS analog
acquisition.

Modelling conventions:
* `int16_t` samples and filter coefficients are integers (`Int`); theorems
  that depend on the 16-bit range carry explicit range hypotheses.
* the `int32_t` accumulator of `AHRS_ADC_downsample_data` is modelled with
  explicit two's-complement wrapping (`wrap32`) on every arithmetic step,
  matching 32-bit machine arithmetic.
* `float` values are modelled as exact rationals (`ℚ`); the final
  `(float)sum / coeff` division becomes rational division.
* the compile-time macros `PIOS_ADC_NUM_CHANNELS` and `MAX_OVERSAMPLING`
  (defined in the header `ahrs_adc.h`, outside the provided sources) are
  left as explicit parameters `numCh` and `M`.
* hardware-register programming (ADC/DMA/NVIC setup in `AHRS_ADC_Config`)
  is elided; only the software-visible state written by the module is
  modelled: the raw sample buffer, `adc_config`, `downsampled_buffer`,
  and the callback.
-/

/-- Two's-complement wrap of an unbounded integer into the `int32_t`
range `[-2^31, 2^31)`, modelling 32-bit machine arithmetic. -/
def wrap32 (x : Int) : Int := (x + 2 ^ 31) % 2 ^ 32 - 2 ^ 31

/-- C `float`-to-`int16_t` conversion: truncation toward zero.  (For values
outside the `int16_t` range the C conversion is undefined; theorems that
need the 16-bit range state it as a hypothesis.) -/
def floatToInt16 (q : ℚ) : Int := if 0 ≤ q then ⌊q⌋ else ⌈q⌉

/-- The `adc_config` struct of `ahrs_adc.c`:
`{ volatile int16_t *valid_data_buffer; volatile uint8_t adc_oversample;
   int16_t fir_coeffs[MAX_OVERSAMPLING]; }`.
`valid_data_buffer` is a pointer into `raw_data_buffer`; it is modelled as
the offset (in samples) of the valid half.  `fir_coeffs` is modelled as a
total function from index to stored value. -/
structure AdcConfig where
  valid_data_buffer : Nat
  adc_oversample : Nat
  fir_coeffs : Nat → Int

/-- The mutable module state of `ahrs_adc.c`: the raw DMA sample buffer
(`volatile int16_t raw_data_buffer[MAX_SAMPLES]`), the configuration
struct, the per-channel filtered output
(`float downsampled_buffer[PIOS_ADC_NUM_PINS]`), and whether a callback
is registered (`static ADCCallback callback_function`, `NULL` by
default). -/
structure AdcState where
  raw_data_buffer : Nat → Int
  adc_config : AdcConfig
  downsampled_buffer : Nat → ℚ
  callback_function : Bool

/-- The inner accumulation loop of `AHRS_ADC_downsample_data` for one
channel: `for (sample = 0; sample < adc_oversample; sample++)
sum += (int32_t)valid_data_buffer[chan + sample*PIOS_ADC_NUM_CHANNELS] *
fir_coeffs[sample];` with `sum` an `int32_t` accumulator.  The argument
is the number of loop iterations executed. -/
def downsampleSumLoop (raw : Nat → Int) (coeffs : Nat → Int) (off numCh chan : Nat) :
    Nat → Int
  | 0 => 0
  | s + 1 =>
      wrap32 (downsampleSumLoop raw coeffs off numCh chan s +
        wrap32 (raw (off + (chan + s * numCh)) * coeffs s))

/-- One channel's output of `AHRS_ADC_downsample_data`:
`downsampled_buffer[chan] = (float)sum / fir_coeffs[adc_oversample]`. -/
def downsampleChan (st : AdcState) (numCh chan : Nat) : ℚ :=
  ((downsampleSumLoop st.raw_data_buffer st.adc_config.fir_coeffs
      st.adc_config.valid_data_buffer numCh chan st.adc_config.adc_oversample : Int) : ℚ) /
    ((st.adc_config.fir_coeffs st.adc_config.adc_oversample : Int) : ℚ)

/-- `AHRS_ADC_downsample_data`: writes one filtered value per channel
index in `[0, PIOS_ADC_NUM_CHANNELS)` into `downsampled_buffer`, then
calls `callback_function(downsampled_buffer)` if one is installed.  The
second component is the callback invocation event, carrying the buffer
contents passed to the callback (`none` when no callback is installed). -/
def AHRS_ADC_downsample_data (st : AdcState) (numCh : Nat) :
    AdcState × Option (Nat → ℚ) :=
  let newbuf : Nat → ℚ := fun chan =>
    if chan < numCh then downsampleChan st numCh chan else st.downsampled_buffer chan
  let st1 : AdcState := { st with downsampled_buffer := newbuf }
  (st1, if st.callback_function then some newbuf else none)

/-- The unbounded ("mathematical") weighted sum
`Σ_{s<n} raw[off + chan + s·numCh] × coeff[s]` that the loop is meant to
compute. -/
def specSum (raw : Nat → Int) (coeffs : Nat → Int) (off numCh chan n : Nat) : Int :=
  ∑ s ∈ Finset.range n, raw (off + (chan + s * numCh)) * coeffs s

theorem wrap32_eq_self {x : Int} (h1 : -(2 ^ 31) ≤ x) (h2 : x < 2 ^ 31) :
    wrap32 x = x := by
  unfold wrap32
  have h0 : (0 : Int) ≤ x + 2 ^ 31 := by linarith
  have hlt : x + 2 ^ 31 < 2 ^ 32 := by norm_num at h2 ⊢; linarith
  rw [Int.emod_eq_of_lt h0 hlt]
  ring

theorem mul_int16_range {a b : Int} (ha1 : -(2 ^ 15) ≤ a) (ha2 : a < 2 ^ 15)
    (hb1 : -(2 ^ 15) ≤ b) (hb2 : b < 2 ^ 15) :
    -(2 ^ 31) ≤ a * b ∧ a * b < 2 ^ 31 := by
  have ha : |a| ≤ 2 ^ 15 := abs_le.mpr ⟨ha1, le_of_lt ha2⟩
  have hb : |b| ≤ 2 ^ 15 := abs_le.mpr ⟨hb1, le_of_lt hb2⟩
  have habs : |a * b| ≤ 2 ^ 30 := by
    rw [abs_mul]
    calc |a| * |b| ≤ 2 ^ 15 * 2 ^ 15 :=
          mul_le_mul ha hb (abs_nonneg b) (by norm_num)
      _ = 2 ^ 30 := by norm_num
  have h := abs_le.mp habs
  norm_num at h ⊢
  constructor <;> linarith [h.1, h.2]

/-- The `int32_t` accumulation loop computes the exact weighted sum as long
as every intermediate value stays within the `int32_t` range. -/
theorem downsampleSumLoop_eq (raw coeffs : Nat → Int) (off numCh chan ov : Nat)
    (hraw : ∀ i, -(2 ^ 15) ≤ raw i ∧ raw i < 2 ^ 15)
    (hcoeff : ∀ i, -(2 ^ 15) ≤ coeffs i ∧ coeffs i < 2 ^ 15)
    (hsum : ∀ s, s ≤ ov →
      -(2 ^ 31) ≤ specSum raw coeffs off numCh chan s ∧
        specSum raw coeffs off numCh chan s < 2 ^ 31) :
    ∀ s, s ≤ ov →
      downsampleSumLoop raw coeffs off numCh chan s =
        specSum raw coeffs off numCh chan s := by
  intro s
  induction s with
  | zero => intro _; simp [downsampleSumLoop, specSum]
  | succ n ih =>
    intro hs
    have hn : n ≤ ov := Nat.le_of_succ_le hs
    have hp := mul_int16_range (hraw (off + (chan + n * numCh))).1
      (hraw (off + (chan + n * numCh))).2 (hcoeff n).1 (hcoeff n).2
    rw [downsampleSumLoop, ih hn, wrap32_eq_self hp.1 hp.2]
    have hstep : specSum raw coeffs off numCh chan n +
        raw (off + (chan + n * numCh)) * coeffs n =
        specSum raw coeffs off numCh chan (n + 1) := by
      simp [specSum, Finset.sum_range_succ]
    rw [hstep]
    exact wrap32_eq_self (hsum (n + 1) hs).1 (hsum (n + 1) hs).2

/-- The concrete test state of the spec's decimation exercise: two
channels, oversampling 3, boxcar coefficients `[1,1,1,3]`, valid half at
offset 0 holding the interleaved samples `[10,5,20,5,30,5]`. -/
def exampleState : AdcState :=
  { raw_data_buffer := fun i => ([10, 5, 20, 5, 30, 5] : List Int).getD i 0
    adc_config :=
      { valid_data_buffer := 0
        adc_oversample := 3
        fir_coeffs := fun i => ([1, 1, 1, 3] : List Int).getD i 0 }
    downsampled_buffer := fun _ => 0
    callback_function := false }

theorem exampleState_chan0 :
    (AHRS_ADC_downsample_data exampleState 2).1.downsampled_buffer 0 = 20 := by
  norm_num [AHRS_ADC_downsample_data, downsampleChan, downsampleSumLoop, exampleState,
    wrap32]

theorem exampleState_chan1 :
    (AHRS_ADC_downsample_data exampleState 2).1.downsampled_buffer 1 = 5 := by
  norm_num [AHRS_ADC_downsample_data, downsampleChan, downsampleSumLoop, exampleState,
    wrap32]

theorem exampleState_raw_bounds :
    ∀ i, -(2 ^ 15) ≤ exampleState.raw_data_buffer i ∧
      exampleState.raw_data_buffer i < 2 ^ 15 := by
  intro i
  rcases i with _ | _ | _ | _ | _ | _ | i <;>
    simp [exampleState, List.getD_cons_zero, List.getD_cons_succ]

theorem exampleState_coeff_bounds :
    ∀ i, -(2 ^ 15) ≤ exampleState.adc_config.fir_coeffs i ∧
      exampleState.adc_config.fir_coeffs i < 2 ^ 15 := by
  intro i
  rcases i with _ | _ | _ | _ | i <;>
    simp [exampleState, List.getD_cons_zero, List.getD_cons_succ]

theorem exampleState_sum_bounds :
    ∀ s, s ≤ exampleState.adc_config.adc_oversample →
      -(2 ^ 31) ≤ specSum exampleState.raw_data_buffer exampleState.adc_config.fir_coeffs
          exampleState.adc_config.valid_data_buffer 2 0 s ∧
        specSum exampleState.raw_data_buffer exampleState.adc_config.fir_coeffs
          exampleState.adc_config.valid_data_buffer 2 0 s < 2 ^ 31 := by
  intro s hs
  have hs3 : s ≤ 3 := hs
  interval_cases s <;> constructor <;> decide

/-- C1: for every configuration and state, `AHRS_ADC_downsample_data`
stores, for each channel `chan < numCh`, the value
`(Σ_{s<oversample} raw[valid + chan + s·numCh] × coeff[s]) / coeff[oversample]`,
the weighted sum being accumulated exactly in the 32-bit accumulator as
long as samples and coefficients are `int16`-ranged and every partial sum
fits in `int32`; in particular, with `numCh = 2`, oversampling 3,
coefficients `[1,1,1,3]` and the half-buffer `[10,5,20,5,30,5]` it
produces `downsampled = [20, 5]`. -/
theorem ahrs_adc_downsample_spec :
    (∀ (st : AdcState) (numCh chan : Nat), chan < numCh →
      (∀ i, -(2 ^ 15) ≤ st.raw_data_buffer i ∧ st.raw_data_buffer i < 2 ^ 15) →
      (∀ i, -(2 ^ 15) ≤ st.adc_config.fir_coeffs i ∧
        st.adc_config.fir_coeffs i < 2 ^ 15) →
      (∀ s, s ≤ st.adc_config.adc_oversample →
        -(2 ^ 31) ≤ specSum st.raw_data_buffer st.adc_config.fir_coeffs
            st.adc_config.valid_data_buffer numCh chan s ∧
          specSum st.raw_data_buffer st.adc_config.fir_coeffs
            st.adc_config.valid_data_buffer numCh chan s < 2 ^ 31) →
      (AHRS_ADC_downsample_data st numCh).1.downsampled_buffer chan =
        ((specSum st.raw_data_buffer st.adc_config.fir_coeffs
            st.adc_config.valid_data_buffer numCh chan
            st.adc_config.adc_oversample : Int) : ℚ) /
          ((st.adc_config.fir_coeffs st.adc_config.adc_oversample : Int) : ℚ)) ∧
    (AHRS_ADC_downsample_data exampleState 2).1.downsampled_buffer 0 = 20 ∧
    (AHRS_ADC_downsample_data exampleState 2).1.downsampled_buffer 1 = 5 := by
  refine ⟨?_, exampleState_chan0, exampleState_chan1⟩
  intro st numCh chan hchan hraw hcoeff hsum
  have hloop := downsampleSumLoop_eq st.raw_data_buffer st.adc_config.fir_coeffs
    st.adc_config.valid_data_buffer numCh chan st.adc_config.adc_oversample
    hraw hcoeff hsum st.adc_config.adc_oversample le_rfl
  simp [AHRS_ADC_downsample_data, downsampleChan, hchan, hloop]

/-- Witness for C1: the general statement applied to the concrete example
state at channel 0, each hypothesis discharged there. -/
theorem ahrs_adc_downsample_spec_witness :
    (AHRS_ADC_downsample_data exampleState 2).1.downsampled_buffer 0 =
      ((specSum exampleState.raw_data_buffer exampleState.adc_config.fir_coeffs
          exampleState.adc_config.valid_data_buffer 2 0
          exampleState.adc_config.adc_oversample : Int) : ℚ) /
        ((exampleState.adc_config.fir_coeffs
            exampleState.adc_config.adc_oversample : Int) : ℚ) :=
  ahrs_adc_downsample_spec.1 exampleState 2 0 (by decide)
    exampleState_raw_bounds exampleState_coeff_bounds exampleState_sum_bounds

/-- DMA channel-1 interrupt/status flags consulted by
`AHRS_ADC_DMA_Handler`: `tc1` is `DMA1_IT_TC1` (transfer complete), `ht1`
is `DMA1_IT_HT1` (half transfer), `te1` stands for the remaining
channel-1 error status covered by the global flag `DMA1_FLAG_GL1`. -/
structure DmaFlags where
  tc1 : Bool
  ht1 : Bool
  te1 : Bool

/-- `AHRS_ADC_DMA_Handler`:
if `DMA_GetFlagStatus(DMA1_IT_TC1)` — whole double buffer filled — set
`valid_data_buffer = &raw_data_buffer[1 * PIOS_ADC_NUM_CHANNELS *
adc_oversample]`, clear `DMA1_IT_TC1`, run `AHRS_ADC_downsample_data`;
else if `DMA_GetFlagStatus(DMA1_IT_HT1)` set
`valid_data_buffer = &raw_data_buffer[0 * PIOS_ADC_NUM_CHANNELS *
adc_oversample]`, clear `DMA1_IT_HT1`, run `AHRS_ADC_downsample_data`;
else clear `DMA1_FLAG_GL1` (which clears every channel-1 flag).
Returns the new state, the new flags, and the callback event (if any). -/
def AHRS_ADC_DMA_Handler (numCh : Nat) (st : AdcState) (f : DmaFlags) :
    AdcState × DmaFlags × Option (Nat → ℚ) :=
  if f.tc1 then
    let st1 : AdcState := { st with adc_config := { st.adc_config with
      valid_data_buffer := 1 * numCh * st.adc_config.adc_oversample } }
    let f1 : DmaFlags := { f with tc1 := false }
    let r := AHRS_ADC_downsample_data st1 numCh
    (r.1, f1, r.2)
  else if f.ht1 then
    let st1 : AdcState := { st with adc_config := { st.adc_config with
      valid_data_buffer := 0 * numCh * st.adc_config.adc_oversample } }
    let f1 : DmaFlags := { f with ht1 := false }
    let r := AHRS_ADC_downsample_data st1 numCh
    (r.1, f1, r.2)
  else
    (st, ⟨false, false, false⟩, none)

/-- A hardware completion signal delivered to the DMA interrupt:
half-transfer complete, full-transfer complete, or anything else
(spurious / transfer error). -/
inductive DmaSignal
  | halfT
  | fullT
  | spurious
deriving DecidableEq

/-- Hardware raising a signal sets the corresponding status flag. -/
def raiseSignal (s : DmaSignal) (f : DmaFlags) : DmaFlags :=
  match s with
  | .halfT => { f with ht1 := true }
  | .fullT => { f with tc1 := true }
  | .spurious => { f with te1 := true }

/-- One interrupt delivery: the hardware raises the signal's flag and the
handler runs. -/
def stepSignal (numCh : Nat) (stf : AdcState × DmaFlags) (s : DmaSignal) :
    (AdcState × DmaFlags) × Option (Nat → ℚ) :=
  let f1 := raiseSignal s stf.2
  let r := AHRS_ADC_DMA_Handler numCh stf.1 f1
  ((r.1, r.2.1), r.2.2)

/-- Processing a sequence of signals, collecting the callback invocation
events in delivery order. -/
def runSignals (numCh : Nat) (stf : AdcState × DmaFlags) :
    List DmaSignal → (AdcState × DmaFlags) × List (Nat → ℚ)
  | [] => (stf, [])
  | s :: rest =>
      let r := stepSignal numCh stf s
      let rr := runSignals numCh r.1 rest
      (rr.1, r.2.toList ++ rr.2)

/-- The trace of published valid-half offsets: the value of
`adc_config.valid_data_buffer` after each processed signal. -/
def validTrace (numCh : Nat) (stf : AdcState × DmaFlags) :
    List DmaSignal → List Nat
  | [] => []
  | s :: rest =>
      let r := stepSignal numCh stf s
      r.1.1.adc_config.valid_data_buffer :: validTrace numCh r.1 rest

/-- All status flags down: the steady state between interrupt deliveries. -/
def cleanFlags (f : DmaFlags) : Prop := f.tc1 = false ∧ f.ht1 = false ∧ f.te1 = false

/-- The half-buffer offset the handler publishes for a completion signal. -/
def signalOffset (numCh ov : Nat) : DmaSignal → Nat
  | .halfT => 0
  | .fullT => numCh * ov
  | .spurious => 0

/-- The index set (into `raw_data_buffer`) of the half starting at `off`,
of `half = numCh * ov` samples. -/
def halfIndexSet (off half : Nat) : Finset Nat :=
  (Finset.range half).image (fun i => off + i)

/-- The callback event of a decimation pass is exactly the just-written
output buffer, when a callback is installed. -/
theorem downsample_event (st : AdcState) (numCh : Nat) :
    (AHRS_ADC_downsample_data st numCh).2 =
      if st.callback_function then
        some (AHRS_ADC_downsample_data st numCh).1.downsampled_buffer
      else none := rfl

theorem downsample_config (st : AdcState) (numCh : Nat) :
    (AHRS_ADC_downsample_data st numCh).1.adc_config = st.adc_config := rfl

theorem downsample_callback (st : AdcState) (numCh : Nat) :
    (AHRS_ADC_downsample_data st numCh).1.callback_function =
      st.callback_function := rfl

/-- C2: on a pending half-transfer-complete flag (and no full-transfer
flag) the handler publishes the first half (offset 0), clears `HT1`, and
synchronously runs the decimation filter; on a pending
full-transfer-complete flag it publishes the second half (offset
`numCh × oversample`), clears `TC1`, and synchronously runs the
decimation filter. -/
theorem ahrs_adc_dma_handler_spec (numCh : Nat) (st : AdcState) (f : DmaFlags) :
    (f.ht1 = true → f.tc1 = false →
      AHRS_ADC_DMA_Handler numCh st f =
        ((AHRS_ADC_downsample_data { st with adc_config := { st.adc_config with
            valid_data_buffer := 0 } } numCh).1,
          { f with ht1 := false },
          (AHRS_ADC_downsample_data { st with adc_config := { st.adc_config with
            valid_data_buffer := 0 } } numCh).2)) ∧
    (f.tc1 = true →
      AHRS_ADC_DMA_Handler numCh st f =
        ((AHRS_ADC_downsample_data { st with adc_config := { st.adc_config with
            valid_data_buffer := numCh * st.adc_config.adc_oversample } } numCh).1,
          { f with tc1 := false },
          (AHRS_ADC_downsample_data { st with adc_config := { st.adc_config with
            valid_data_buffer := numCh * st.adc_config.adc_oversample } } numCh).2)) := by
  constructor
  · intro hht htc
    simp [AHRS_ADC_DMA_Handler, hht, htc]
  · intro htc
    simp [AHRS_ADC_DMA_Handler, htc]

/-- Witness for C2: the half-transfer branch evaluated on the concrete
example state. -/
theorem ahrs_adc_dma_handler_spec_witness :
    AHRS_ADC_DMA_Handler 2 exampleState ⟨false, true, false⟩ =
      ((AHRS_ADC_downsample_data { exampleState with adc_config :=
          { exampleState.adc_config with valid_data_buffer := 0 } } 2).1,
        ⟨false, false, false⟩,
        (AHRS_ADC_downsample_data { exampleState with adc_config :=
          { exampleState.adc_config with valid_data_buffer := 0 } } 2).2) :=
  (ahrs_adc_dma_handler_spec 2 exampleState ⟨false, true, false⟩).1 rfl rfl

/-- C7: on a signal that is neither half- nor full-transfer-complete, the
handler clears the channel's global/error flag and takes no data action:
state (valid-half pointer, downsampled buffer, coefficients) is
unchanged, the filter does not run, and no callback is invoked. -/
theorem ahrs_adc_spurious_noop (numCh : Nat) (st : AdcState) (f : DmaFlags)
    (htc : f.tc1 = false) (hht : f.ht1 = false) :
    AHRS_ADC_DMA_Handler numCh st f = (st, ⟨false, false, false⟩, none) := by
  simp [AHRS_ADC_DMA_Handler, htc, hht]

/-- Witness for C7: a pending error flag on the example state. -/
theorem ahrs_adc_spurious_noop_witness :
    AHRS_ADC_DMA_Handler 2 exampleState ⟨false, false, true⟩ =
      (exampleState, ⟨false, false, false⟩, none) :=
  ahrs_adc_spurious_noop 2 exampleState ⟨false, false, true⟩ rfl rfl

/-- C8: with no callback registered, `AHRS_ADC_downsample_data` writes the
very same filtered values into the output buffer as it would with a
callback registered, each channel getting its decimated value, and the
dispatch step is a no-op (`none`), not an error. -/
theorem ahrs_adc_no_callback_still_writes (st : AdcState) (numCh : Nat)
    (hcb : st.callback_function = false) :
    ((AHRS_ADC_downsample_data st numCh).1.downsampled_buffer =
      (AHRS_ADC_downsample_data { st with callback_function := true }
        numCh).1.downsampled_buffer) ∧
    (∀ chan, chan < numCh →
      (AHRS_ADC_downsample_data st numCh).1.downsampled_buffer chan =
        downsampleChan st numCh chan) ∧
    (AHRS_ADC_downsample_data st numCh).2 = none := by
  refine ⟨rfl, ?_, ?_⟩
  · intro chan hchan
    simp [AHRS_ADC_downsample_data, hchan]
  · simp [AHRS_ADC_downsample_data, hcb]

/-- Witness for C8: the example state has no callback registered. -/
theorem ahrs_adc_no_callback_still_writes_witness :
    ((AHRS_ADC_downsample_data exampleState 2).1.downsampled_buffer =
      (AHRS_ADC_downsample_data { exampleState with callback_function := true }
        2).1.downsampled_buffer) ∧
    (AHRS_ADC_downsample_data exampleState 2).1.downsampled_buffer 0 =
      downsampleChan exampleState 2 0 ∧
    (AHRS_ADC_downsample_data exampleState 2).2 = none := by
  have h := ahrs_adc_no_callback_still_writes exampleState 2 rfl
  exact ⟨h.1, h.2.1 0 (by decide), h.2.2⟩

theorem mem_halfIndexSet {off half x : Nat} :
    x ∈ halfIndexSet off half ↔ off ≤ x ∧ x < off + half := by
  simp only [halfIndexSet, Finset.mem_image, Finset.mem_range]
  constructor
  · rintro ⟨i, hi, rfl⟩; omega
  · rintro ⟨h1, h2⟩; exact ⟨x - off, by omega, by omega⟩

/-- One delivered completion signal, starting from quiescent flags:
the handler publishes the offset determined by the signal, returns to
quiescent flags, and leaves the configuration's oversampling factor and
the registered callback untouched. -/
theorem stepSignal_clean (numCh : Nat) (st : AdcState) (f : DmaFlags)
    (hf : cleanFlags f) (s : DmaSignal) (hs : s ≠ DmaSignal.spurious) :
    (stepSignal numCh (st, f) s).1.1.adc_config.valid_data_buffer =
        signalOffset numCh st.adc_config.adc_oversample s ∧
    cleanFlags (stepSignal numCh (st, f) s).1.2 ∧
    (stepSignal numCh (st, f) s).1.1.adc_config.adc_oversample =
      st.adc_config.adc_oversample ∧
    (stepSignal numCh (st, f) s).1.1.callback_function = st.callback_function ∧
    (stepSignal numCh (st, f) s).2 =
      (if st.callback_function then
        some (stepSignal numCh (st, f) s).1.1.downsampled_buffer else none) := by
  obtain ⟨htc, hht, hte⟩ := hf
  cases s with
  | halfT =>
      simp [stepSignal, raiseSignal, AHRS_ADC_DMA_Handler, htc, hht, hte,
        cleanFlags, signalOffset, downsample_event, downsample_config,
        downsample_callback]
  | fullT =>
      simp [stepSignal, raiseSignal, AHRS_ADC_DMA_Handler, htc, hht, hte,
        cleanFlags, signalOffset, downsample_event, downsample_config,
        downsample_callback]
  | spurious => exact absurd rfl hs

/-- Starting from quiescent flags, the published valid-half offsets along
any spurious-free signal sequence are exactly the per-signal offsets. -/
theorem validTrace_map (numCh : Nat) (ov : Nat) :
    ∀ (sigs : List DmaSignal) (st : AdcState) (f : DmaFlags),
      st.adc_config.adc_oversample = ov → cleanFlags f →
      (∀ s ∈ sigs, s ≠ DmaSignal.spurious) →
      validTrace numCh (st, f) sigs = sigs.map (signalOffset numCh ov) := by
  intro sigs
  induction sigs with
  | nil => intro st f _ _ _; rfl
  | cons s rest ih =>
    intro st f hov hf hsp
    have hstep := stepSignal_clean numCh st f hf s (hsp s (by simp))
    rw [hov] at hstep
    have htail := ih (stepSignal numCh (st, f) s).1.1
      (stepSignal numCh (st, f) s).1.2
      hstep.2.2.1 hstep.2.1
      (fun x hx => hsp x (by simp [hx]))
    rw [validTrace, List.map_cons]
    exact congrArg₂ (· :: ·) hstep.1 htail

/-- Alternating completion signals map to alternating published offsets:
consecutive distinct non-spurious signals publish distinct halves. -/
theorem chain_map_offsets (numCh ov : Nat) (hpos : 0 < numCh * ov) :
    ∀ (sigs : List DmaSignal), (∀ s ∈ sigs, s ≠ DmaSignal.spurious) →
      sigs.Chain' (· ≠ ·) →
      (sigs.map (signalOffset numCh ov)).Chain' (· ≠ ·) := by
  intro sigs
  induction sigs with
  | nil => intro _ _; simp
  | cons a rest ih =>
    intro hsp hch
    cases rest with
    | nil => simp
    | cons b rest2 =>
      rw [List.map_cons, List.map_cons, List.chain'_cons]
      rcases List.chain'_cons.mp hch with ⟨hab, hrest⟩
      refine ⟨?_, ?_⟩
      · have ha := hsp a (by simp)
        have hb := hsp b (by simp)
        cases a <;> cases b <;> simp_all [signalOffset] <;> omega
      · have hrec := ih (fun s hs => hsp s (List.mem_cons_of_mem a hs)) hrest
        rwa [List.map_cons] at hrec

/-- C3: for any alternating half/full completion sequence started from
quiescent flags, the published valid-half offset is always one of the two
half offsets `0` and `numCh × oversample`, never the same one twice in a
row, and the two halves are disjoint partitions of the raw buffer. -/
theorem ahrs_adc_half_alternation (numCh : Nat) (st : AdcState) (f : DmaFlags)
    (hpos : 0 < numCh * st.adc_config.adc_oversample)
    (hf : cleanFlags f) (sigs : List DmaSignal)
    (hsp : ∀ s ∈ sigs, s ≠ DmaSignal.spurious)
    (halt : sigs.Chain' (· ≠ ·)) :
    (validTrace numCh (st, f) sigs).Chain' (· ≠ ·) ∧
    (∀ o ∈ validTrace numCh (st, f) sigs,
      o = 0 ∨ o = numCh * st.adc_config.adc_oversample) ∧
    Disjoint (halfIndexSet 0 (numCh * st.adc_config.adc_oversample))
      (halfIndexSet (numCh * st.adc_config.adc_oversample)
        (numCh * st.adc_config.adc_oversample)) ∧
    halfIndexSet 0 (numCh * st.adc_config.adc_oversample) ∪
      halfIndexSet (numCh * st.adc_config.adc_oversample)
        (numCh * st.adc_config.adc_oversample) =
      Finset.range (numCh * st.adc_config.adc_oversample * 2) := by
  set H := numCh * st.adc_config.adc_oversample with hH
  have hmap := validTrace_map numCh st.adc_config.adc_oversample sigs st f rfl hf hsp
  refine ⟨?_, ?_, ?_, ?_⟩
  · rw [hmap]
    exact chain_map_offsets numCh st.adc_config.adc_oversample hpos sigs hsp halt
  · rw [hmap]
    intro o ho
    rw [List.mem_map] at ho
    obtain ⟨x, hx, rfl⟩ := ho
    cases x <;> simp [signalOffset]
  · rw [Finset.disjoint_left]
    intro x hx1 hx2
    rw [mem_halfIndexSet] at hx1 hx2
    omega
  · ext x
    simp only [Finset.mem_union, mem_halfIndexSet, Finset.mem_range]
    omega

/-- Witness for C3: three alternating signals on the concrete example
state, starting from quiescent flags. -/
theorem ahrs_adc_half_alternation_witness :
    (validTrace 2 (exampleState, ⟨false, false, false⟩)
        [DmaSignal.halfT, DmaSignal.fullT, DmaSignal.halfT]).Chain' (· ≠ ·) ∧
    (∀ o ∈ validTrace 2 (exampleState, ⟨false, false, false⟩)
        [DmaSignal.halfT, DmaSignal.fullT, DmaSignal.halfT],
      o = 0 ∨ o = 2 * exampleState.adc_config.adc_oversample) ∧
    Disjoint (halfIndexSet 0 (2 * exampleState.adc_config.adc_oversample))
      (halfIndexSet (2 * exampleState.adc_config.adc_oversample)
        (2 * exampleState.adc_config.adc_oversample)) ∧
    halfIndexSet 0 (2 * exampleState.adc_config.adc_oversample) ∪
      halfIndexSet (2 * exampleState.adc_config.adc_oversample)
        (2 * exampleState.adc_config.adc_oversample) =
      Finset.range (2 * exampleState.adc_config.adc_oversample * 2) :=
  ahrs_adc_half_alternation 2 exampleState ⟨false, false, false⟩ (by decide)
    ⟨rfl, rfl, rfl⟩ [DmaSignal.halfT, DmaSignal.fullT, DmaSignal.halfT]
    (by decide) (by simp [List.chain'_cons])

/-- Processing one completion signal from quiescent flags prepends exactly
one callback event — the just-written output buffer — to the run's event
list, when a callback is registered. -/
theorem runSignals_cons_clean (numCh : Nat) (st : AdcState) (f : DmaFlags)
    (hcb : st.callback_function = true) (hf : cleanFlags f) (s : DmaSignal)
    (hs : s ≠ DmaSignal.spurious) (rest : List DmaSignal) :
    runSignals numCh (st, f) (s :: rest) =
      ((runSignals numCh (stepSignal numCh (st, f) s).1 rest).1,
        (stepSignal numCh (st, f) s).1.1.downsampled_buffer ::
          (runSignals numCh (stepSignal numCh (st, f) s).1 rest).2) := by
  have hstep := stepSignal_clean numCh st f hf s hs
  rw [hcb] at hstep
  have hev : (stepSignal numCh (st, f) s).2 =
      some (stepSignal numCh (st, f) s).1.1.downsampled_buffer := by
    simpa using hstep.2.2.2.2
  simp only [runSignals, hev, Option.toList_some, List.singleton_append]

/-- C6: with a callback registered and quiescent flags, a run of N
completion signals (half or full) invokes the callback exactly N times,
once per signal, in signal order, each invocation receiving the output
buffer just written by that signal's decimation pass. -/
theorem ahrs_adc_callback_count (numCh : Nat) :
    ∀ (sigs : List DmaSignal) (st : AdcState) (f : DmaFlags),
      st.callback_function = true → cleanFlags f →
      (∀ s ∈ sigs, s ≠ DmaSignal.spurious) →
      (runSignals numCh (st, f) sigs).2.length = sigs.length ∧
      ∀ i, i < sigs.length →
        (runSignals numCh (st, f) sigs).2[i]? =
          some ((runSignals numCh (st, f)
            (sigs.take (i + 1))).1.1.downsampled_buffer) := by
  intro sigs
  induction sigs with
  | nil =>
    intro st f hcb hf hsp
    exact ⟨rfl, fun i hi => absurd hi (by simp)⟩
  | cons s rest ih =>
    intro st f hcb hf hsp
    have hstep := stepSignal_clean numCh st f hf s (hsp s (by simp))
    have hcb2 : (stepSignal numCh (st, f) s).1.1.callback_function = true :=
      hstep.2.2.2.1.trans hcb
    have hcons := runSignals_cons_clean numCh st f hcb hf s (hsp s (by simp)) rest
    have ihh := ih (stepSignal numCh (st, f) s).1.1 (stepSignal numCh (st, f) s).1.2
      hcb2 hstep.2.1 (fun x hx => hsp x (List.mem_cons_of_mem s hx))
    constructor
    · rw [hcons]
      simp only [List.length_cons]
      exact congrArg (· + 1) ihh.1
    · intro i hi
      rcases i with _ | j
      · rw [hcons]
        simp only [List.getElem?_cons_zero, List.take_succ_cons, List.take_zero]
        rfl
      · rw [hcons]
        simp only [List.getElem?_cons_succ, List.take_succ_cons]
        rw [runSignals_cons_clean numCh st f hcb hf s (hsp s (by simp))
          (rest.take (j + 1))]
        exact ihh.2 j (by simpa using hi)

/-- Witness for C6: two alternating completion signals on the example
state with a callback registered. -/
theorem ahrs_adc_callback_count_witness :
    (runSignals 2 ({ exampleState with callback_function := true },
        ⟨false, false, false⟩) [DmaSignal.halfT, DmaSignal.fullT]).2.length = 2 ∧
    ∀ i, i < ([DmaSignal.halfT, DmaSignal.fullT] : List DmaSignal).length →
      (runSignals 2 ({ exampleState with callback_function := true },
          ⟨false, false, false⟩) [DmaSignal.halfT, DmaSignal.fullT]).2[i]? =
        some ((runSignals 2 ({ exampleState with callback_function := true },
          ⟨false, false, false⟩)
          ([DmaSignal.halfT, DmaSignal.fullT].take (i + 1))).1.1.downsampled_buffer) :=
  ahrs_adc_callback_count 2 [DmaSignal.halfT, DmaSignal.fullT]
    { exampleState with callback_function := true } ⟨false, false, false⟩
    rfl ⟨rfl, rfl, rfl⟩ (by decide)

/-- The DMA transfer length programmed by `AHRS_ADC_Config`:
`DMA_BufferSize = (PIOS_ADC_NUM_CHANNELS * adc_oversample * 2) >> 1`
transfer units; each unit is a 32-bit word holding the two `int16_t`
results of the parallel ADC1/ADC2 read. -/
def dma_buffer_size_words (numCh ov : Nat) : Nat := numCh * ov * 2 / 2

/-- Capacity of the circular raw sample region in `int16_t` samples:
two samples per transferred word. -/
def raw_buffer_capacity (numCh ov : Nat) : Nat := 2 * dma_buffer_size_words numCh ov

/-- The boxcar-initialization loop at the end of `AHRS_ADC_Config`:
`for (int i = 0; i < adc_oversample; i++) adc_config.fir_coeffs[i] = 1;`
(the argument is the number of iterations executed). -/
def configFirLoop (coeffs : Nat → Int) : Nat → (Nat → Int)
  | 0 => coeffs
  | i + 1 => Function.update (configFirLoop coeffs i) i 1

/-- The software-visible configuration effect of `AHRS_ADC_Config`: store
the factor into the `uint8_t` field (`adc_config.adc_oversample =
adc_oversample`, hence mod 256), run the boxcar loop, then
`adc_config.fir_coeffs[adc_oversample] = adc_oversample;` and `return 1`.
All hardware-register programming between these statements is elided. -/
def AHRS_ADC_Config (cfg : AdcConfig) (adc_oversample : Nat) : AdcConfig × Nat :=
  ({ cfg with
      adc_oversample := adc_oversample % 256
      fir_coeffs :=
        Function.update (configFirLoop cfg.fir_coeffs adc_oversample)
          adc_oversample (adc_oversample : Int) }, 1)

/-- The copy loop of `AHRS_ADC_SetFIRCoefficients`:
`for (int i = 0; i <= adc_config.adc_oversample; i++)
adc_config.fir_coeffs[i] = new_filter[i];` — each `float` is converted to
the `int16_t` element type on store (the argument is the number of
iterations executed). -/
def setFirLoop (coeffs : Nat → Int) (new_filter : Nat → ℚ) : Nat → (Nat → Int)
  | 0 => coeffs
  | i + 1 =>
      Function.update (setFirLoop coeffs new_filter i) i
        (floatToInt16 (new_filter i))

/-- `AHRS_ADC_SetFIRCoefficients`: copies `adc_oversample + 1` supplied
values (weights plus normalization constant) into `fir_coeffs`. -/
def AHRS_ADC_SetFIRCoefficients (cfg : AdcConfig) (new_filter : Nat → ℚ) :
    AdcConfig :=
  { cfg with
      fir_coeffs := setFirLoop cfg.fir_coeffs new_filter (cfg.adc_oversample + 1) }

/-- The set of `fir_coeffs` indices written when the configured factor is
`ov`: the loop indices `0 .. ov-1` plus the normalization-divisor slot
`ov` (written by both `AHRS_ADC_Config` and
`AHRS_ADC_SetFIRCoefficients`). -/
def coeffWriteIndices (ov : Nat) : Finset Nat := Finset.range ov ∪ {ov}

theorem configFirLoop_lt (coeffs : Nat → Int) :
    ∀ n j, j < n → configFirLoop coeffs n j = 1 := by
  intro n
  induction n with
  | zero => intro j hj; omega
  | succ m ih =>
    intro j hj
    rcases Nat.lt_succ_iff_lt_or_eq.mp hj with h | h
    · rw [configFirLoop, Function.update_apply, if_neg (by omega)]
      exact ih j h
    · subst h
      rw [configFirLoop, Function.update_apply, if_pos rfl]

theorem configFirLoop_ge (coeffs : Nat → Int) :
    ∀ n j, n ≤ j → configFirLoop coeffs n j = coeffs j := by
  intro n
  induction n with
  | zero => intro j _; rfl
  | succ m ih =>
    intro j hj
    rw [configFirLoop, Function.update_apply, if_neg (by omega)]
    exact ih j (by omega)

theorem setFirLoop_lt (coeffs : Nat → Int) (new_filter : Nat → ℚ) :
    ∀ n j, j < n → setFirLoop coeffs new_filter n j = floatToInt16 (new_filter j) := by
  intro n
  induction n with
  | zero => intro j hj; omega
  | succ m ih =>
    intro j hj
    rcases Nat.lt_succ_iff_lt_or_eq.mp hj with h | h
    · rw [setFirLoop, Function.update_apply, if_neg (by omega)]
      exact ih j h
    · subst h
      rw [setFirLoop, Function.update_apply, if_pos rfl]

/-- C4: the circular raw region programmed into the DMA engine holds
exactly `numCh × ov × 2` samples, and every index used by the buffer-swap
handler and the decimation filter — a published half offset plus the
in-half index `chan + sample·numCh` — stays strictly below that
capacity. -/
theorem ahrs_adc_buffer_capacity_bounds (numCh ov : Nat) :
    raw_buffer_capacity numCh ov = numCh * ov * 2 ∧
    (∀ (s : DmaSignal) (chan sample : Nat), s ≠ DmaSignal.spurious →
      chan < numCh → sample < ov →
      signalOffset numCh ov s + (chan + sample * numCh) <
        raw_buffer_capacity numCh ov) := by
  have hcap : raw_buffer_capacity numCh ov = numCh * ov * 2 := by
    unfold raw_buffer_capacity dma_buffer_size_words
    omega
  refine ⟨hcap, ?_⟩
  intro s chan sample hs hchan hsample
  have hidx : chan + sample * numCh < numCh * ov := by
    calc chan + sample * numCh < numCh + sample * numCh := by omega
      _ = (sample + 1) * numCh := by ring
      _ ≤ ov * numCh := Nat.mul_le_mul_right numCh hsample
      _ = numCh * ov := Nat.mul_comm ov numCh
  rw [hcap]
  cases s with
  | halfT => simp only [signalOffset]; omega
  | fullT => simp only [signalOffset]; omega
  | spurious => exact absurd rfl hs

/-- Witness for C4: two channels, oversampling 3, the last sample of the
last channel in the second half. -/
theorem ahrs_adc_buffer_capacity_bounds_witness :
    raw_buffer_capacity 2 3 = 2 * 3 * 2 ∧
    signalOffset 2 3 DmaSignal.fullT + (1 + 2 * 2) < raw_buffer_capacity 2 3 :=
  ⟨(ahrs_adc_buffer_capacity_bounds 2 3).1,
    (ahrs_adc_buffer_capacity_bounds 2 3).2 DmaSignal.fullT 1 2
      (by decide) (by decide) (by decide)⟩

/-- C5: after `AHRS_ADC_Config`, the coefficient table holds the boxcar
default: the first `ov` weights all equal 1 and the slot at index `ov`
holds the normalization divisor `ov`. -/
theorem ahrs_adc_config_boxcar (cfg : AdcConfig) (ov : Nat) :
    (∀ i, i < ov → (AHRS_ADC_Config cfg ov).1.fir_coeffs i = 1) ∧
    (AHRS_ADC_Config cfg ov).1.fir_coeffs ov = ((ov : Nat) : Int) := by
  constructor
  · intro i hi
    show Function.update (configFirLoop cfg.fir_coeffs ov) ov ((ov : Nat) : Int) i = 1
    rw [Function.update_apply, if_neg (by omega)]
    exact configFirLoop_lt cfg.fir_coeffs ov i hi
  · show Function.update (configFirLoop cfg.fir_coeffs ov) ov ((ov : Nat) : Int) ov =
      ((ov : Nat) : Int)
    rw [Function.update_apply, if_pos rfl]

/-- A blank configuration, for concrete instantiation. -/
def zeroConfig : AdcConfig := ⟨0, 0, fun _ => 0⟩

/-- Witness for C5: configuration with oversampling 3 on a blank
configuration. -/
theorem ahrs_adc_config_boxcar_witness :
    (AHRS_ADC_Config zeroConfig 3).1.fir_coeffs 1 = 1 ∧
    (AHRS_ADC_Config zeroConfig 3).1.fir_coeffs 3 = ((3 : Nat) : Int) :=
  ⟨(ahrs_adc_config_boxcar zeroConfig 3).1 1 (by decide),
    (ahrs_adc_config_boxcar zeroConfig 3).2⟩

/-- C9: every supplied value — the normalization divisor included — is
truncated toward zero to the `int16_t` element type before being stored
into `fir_coeffs`; a stored coefficient equals the supplied `float`
exactly when that value had no fractional part, and `int16`-ranged
supplied values store to `int16`-ranged integers. -/
theorem ahrs_adc_setfir_truncates :
    (∀ (cfg : AdcConfig) (new_filter : Nat → ℚ) i, i ≤ cfg.adc_oversample →
      (AHRS_ADC_SetFIRCoefficients cfg new_filter).fir_coeffs i =
        floatToInt16 (new_filter i)) ∧
    (∀ q : ℚ, ((floatToInt16 q : Int) : ℚ) = q ↔ q.den = 1) ∧
    (∀ q : ℚ, -(2 ^ 15) ≤ q → q < 2 ^ 15 →
      -(2 ^ 15) ≤ floatToInt16 q ∧ floatToInt16 q < 2 ^ 15) := by
  refine ⟨?_, ?_, ?_⟩
  · intro cfg new_filter i hi
    show setFirLoop cfg.fir_coeffs new_filter (cfg.adc_oversample + 1) i =
      floatToInt16 (new_filter i)
    exact setFirLoop_lt cfg.fir_coeffs new_filter (cfg.adc_oversample + 1) i
      (by omega)
  · intro q
    constructor
    · intro h
      rw [← h]
      exact Rat.den_intCast _
    · intro h
      have hq : (q.num : ℚ) = q := Rat.coe_int_num_of_den_eq_one h
      unfold floatToInt16
      split
      · rw [← hq, Int.floor_intCast]
      · rw [← hq, Int.ceil_intCast]
  · intro q h1 h2
    unfold floatToInt16
    split
    · rename_i h0
      constructor
      · have hnn : (0 : Int) ≤ ⌊q⌋ := Int.floor_nonneg.mpr h0
        omega
      · exact Int.floor_lt.mpr (by exact_mod_cast h2)
    · rename_i h0
      push_neg at h0
      constructor
      · exact_mod_cast h1.trans (Int.le_ceil q)
      · have hc : ⌈q⌉ ≤ 0 := Int.ceil_le.mpr (by exact_mod_cast h0.le)
        omega

/-- A configuration with oversampling 3, for concrete instantiation of the
coefficient-replacement call. -/
def firTestConfig : AdcConfig := ⟨0, 3, fun _ => 0⟩

/-- A supplied filter with a fractional weight `3/2`. -/
def firTestFilter : Nat → ℚ := fun i => ([3 / 2, 2, 1, 4] : List ℚ).getD i 0

/-- Witness for C9: storing the fractional weight `3/2` truncates it. -/
theorem ahrs_adc_setfir_truncates_witness :
    ((AHRS_ADC_SetFIRCoefficients firTestConfig firTestFilter).fir_coeffs 0 =
      floatToInt16 (firTestFilter 0)) ∧
    (((floatToInt16 (3 / 2 : ℚ) : Int) : ℚ) = (3 / 2 : ℚ) ↔ (3 / 2 : ℚ).den = 1) ∧
    (-(2 ^ 15) ≤ floatToInt16 (3 / 2 : ℚ) ∧ floatToInt16 (3 / 2 : ℚ) < 2 ^ 15) :=
  ⟨ahrs_adc_setfir_truncates.1 firTestConfig firTestFilter 0 (Nat.zero_le _),
    ahrs_adc_setfir_truncates.2.1 (3 / 2 : ℚ),
    ahrs_adc_setfir_truncates.2.2 (3 / 2 : ℚ) (by norm_num) (by norm_num)⟩

/-- C10: with a coefficient table of `M = MAX_OVERSAMPLING` entries
(valid indices `< M`), both coefficient writers store the normalization
divisor at index `adc_oversample`; every written index is in bounds
exactly when `adc_oversample < M`, and with `adc_oversample = M` the
divisor write falls outside the table. -/
theorem ahrs_adc_coeff_table_bounds (M ov : Nat) :
    (∀ cfg : AdcConfig, (AHRS_ADC_Config cfg ov).1.fir_coeffs ov =
      ((ov : Nat) : Int)) ∧
    (∀ (cfg : AdcConfig) (new_filter : Nat → ℚ), cfg.adc_oversample = ov →
      (AHRS_ADC_SetFIRCoefficients cfg new_filter).fir_coeffs ov =
        floatToInt16 (new_filter ov)) ∧
    ((∀ i ∈ coeffWriteIndices ov, i < M) ↔ ov < M) ∧
    (ov = M → ov ∈ coeffWriteIndices ov ∧ ¬ ov < M) := by
  refine ⟨?_, ?_, ?_, ?_⟩
  · intro cfg
    show Function.update (configFirLoop cfg.fir_coeffs ov) ov ((ov : Nat) : Int) ov =
      ((ov : Nat) : Int)
    rw [Function.update_apply, if_pos rfl]
  · intro cfg new_filter hov
    show setFirLoop cfg.fir_coeffs new_filter (cfg.adc_oversample + 1) ov =
      floatToInt16 (new_filter ov)
    rw [hov]
    exact setFirLoop_lt cfg.fir_coeffs new_filter (ov + 1) ov (by omega)
  · constructor
    · intro h
      exact h ov (by simp [coeffWriteIndices])
    · intro h i hi
      simp only [coeffWriteIndices, Finset.mem_union, Finset.mem_range,
        Finset.mem_singleton] at hi
      omega
  · intro h
    exact ⟨by simp [coeffWriteIndices], by omega⟩

/-- Witness for C10: the divisor slot of a factor-3 configuration is
written at index 3, and with a table of exactly 4 entries every write is
in bounds, while a factor-4 configuration's divisor write at index 4
falls outside a 4-entry table. -/
theorem ahrs_adc_coeff_table_bounds_witness :
    ((AHRS_ADC_SetFIRCoefficients firTestConfig firTestFilter).fir_coeffs 3 =
      floatToInt16 (firTestFilter 3)) ∧
    (4 ∈ coeffWriteIndices 4 ∧ ¬ 4 < 4) :=
  ⟨(ahrs_adc_coeff_table_bounds 4 3).2.1 firTestConfig firTestFilter rfl,
    (ahrs_adc_coeff_table_bounds 4 4).2.2.2 rfl⟩
